import Mathlib

/-!
Verification development for the `bridgebuff` client (`src/client.py`).

The Python source is shallowly embedded: bytes are modelled as `Char`
(the client decodes with `errors="replace"`, and every claim concerns
ASCII data), the socket is modelled as the list of bytes the peer will
deliver before closing the connection, Python `dict`s (which iterate in
insertion order) are modelled as association lists, and Python floats
are modelled as exact rationals.  `recv(k)` is modelled as delivering
`min(k, available)` bytes at once; the client's read loops accumulate
until the requested count is reached or the stream ends, so their
results do not depend on how the peer chunks its bytes.
-/

set_option maxHeartbeats 1000000

/-- `xs.startswith p` on byte/char lists (Python `bytes.startswith` / `str.startswith`). -/
def startsWith : List Char → List Char → Bool
  | _, [] => true
  | [], _ :: _ => false
  | x :: xs, p :: ps => x == p && startsWith xs ps

/-- Python's `p in xs` substring test for char lists. -/
def containsSeq (p : List Char) : List Char → Bool
  | [] => p.isEmpty
  | x :: xs => startsWith (x :: xs) p || containsSeq p xs

/-- Python's `xs.split(sep, 1)`: split at the first occurrence of `sep`; the
second component is `none` when `sep` does not occur. -/
def splitOnce (sep : List Char) : List Char → List Char × Option (List Char)
  | [] => ([], none)
  | x :: xs =>
    if startsWith (x :: xs) sep then ([], some ((x :: xs).drop sep.length))
    else
      let r := splitOnce sep xs
      (x :: r.1, r.2)

/-- Python's `s.split("\r\n")` (full split on the two-byte separator). -/
def splitCrlf : List Char → List (List Char)
  | [] => [[]]
  | '\r' :: '\n' :: rest => [] :: splitCrlf rest
  | c :: rest =>
    match splitCrlf rest with
    | [] => [[c]]
    | a :: as => (c :: a) :: as

/-- Python's `s.strip()`: drop whitespace from both ends. -/
def stripChars (s : List Char) : List Char :=
  ((s.dropWhile Char.isWhitespace).reverse.dropWhile Char.isWhitespace).reverse

/-- Accumulator loop for a run of decimal digits; fails on any non-digit. -/
def digitsValAux : List Char → Nat → Option Nat
  | [], acc => some acc
  | c :: rest, acc =>
    if c.isDigit then digitsValAux rest (acc * 10 + (c.toNat - 48)) else none

/-- Python `int(s)` on an already-stripped string: an optional sign followed by
at least one decimal digit.  (Python's extra forms — underscore separators and
non-ASCII digits — are not modelled; no claim depends on them.) -/
def parseIntPy (s : List Char) : Option Int :=
  match s with
  | [] => none
  | '-' :: rest =>
    if rest.isEmpty then none else (digitsValAux rest 0).map (fun n => -(n : Int))
  | '+' :: rest =>
    if rest.isEmpty then none else (digitsValAux rest 0).map (fun n => (n : Int))
  | _ => (digitsValAux s 0).map (fun n => (n : Int))

/-- Digits of `n` with `fuel` bounding the recursion depth (Python `str(n)`;
`fuel = n + 1` always suffices since the argument shrinks by a factor of 10). -/
def natToCharsAux : Nat → Nat → List Char → List Char
  | 0, _, acc => acc
  | fuel + 1, n, acc =>
    if n < 10 then Char.ofNat (48 + n) :: acc
    else natToCharsAux fuel (n / 10) (Char.ofNat (48 + n % 10) :: acc)

/-- Python `str(n)` for a natural number. -/
def natToChars (n : Nat) : List Char :=
  natToCharsAux (n + 1) n []

/-- Numeric value of a decimal digit character. -/
def digitVal (c : Char) : Nat := c.toNat - 48

/-- Sum of the digit-values of a string. -/
def digitSum (s : List Char) : Nat := (s.map digitVal).sum

/-- The header terminator `b"\r\n\r\n"`. -/
def crlfTerm : List Char := ['\r', '\n', '\r', '\n']

/-- The header-reading loop of `http_get` (src/client.py lines 150-164): one
byte is received at a time and appended to `acc`; the loop stops as soon as
`b"\r\n\r\n"` occurs in the accumulated bytes.  If the stream ends first
(`recv` returns `b""`: connection closed), the call fails with `none`. -/
def readHeader (acc stream : List Char) : Option (List Char × List Char) :=
  match stream with
  | [] => none
  | c :: rest =>
    if containsSeq crlfTerm (acc ++ [c]) then some (acc ++ [c], rest)
    else readHeader (acc ++ [c]) rest

/-- The `Content-Length` scan of `http_get` (src/client.py lines 177-190):
the first line whose lowercasing starts with `"content-length:"` is split at
its first `':'`, and the part after the colon is stripped and parsed with
`int(...)`; a parse failure leaves the length at `0`, and the loop breaks
after the first matching line either way.  Absence of a match yields `0`. -/
def findContentLength : List (List Char) → Int
  | [] => 0
  | ln :: rest =>
    if startsWith (ln.map Char.toLower) ("content-length:".toList) then
      match splitOnce [':'] ln with
      | (_, some v) => (parseIntPy (stripChars v)).getD 0
      | (_, none) => 0
    else findContentLength rest

/-- Body-reading loop of `http_get` (src/client.py lines 193-205), fuelled for
structural recursion (`fuel = stream.length + 1` suffices: every iteration with
a nonempty stream consumes at least one byte).  Each `recv(to_read)` delivers
`min(to_read, available)` bytes; when the stream is exhausted before `to_read`
reaches zero the source `break`s out of the loop, keeping the partial body. -/
def recvLoopAux : Nat → Int → List Char → List Char → List Char × List Char
  | 0, _, stream, body => (body, stream)
  | fuel + 1, toRead, stream, body =>
    if toRead ≤ 0 then (body, stream)
    else
      match stream with
      | [] => (body, [])
      | c :: rest =>
        let chunk := (c :: rest).take toRead.toNat
        recvLoopAux fuel (toRead - chunk.length) ((c :: rest).drop toRead.toNat) (body ++ chunk)

/-- The body-reading loop with adequate fuel. -/
def recvLoop (toRead : Int) (stream body : List Char) : List Char × List Char :=
  recvLoopAux (stream.length + 1) toRead stream body

/-- First line of a header block: `header_part.split("\r\n")[0]`. -/
def firstLineOf (hdr : List Char) : List Char :=
  (splitCrlf hdr).headD []

/-- Declared content length of a header block: the scan over `lines[1:]`. -/
def contentLengthOf (hdr : List Char) : Int :=
  findContentLength ((splitCrlf hdr).drop 1)

/-- `http_get` (src/client.py lines 121-208), receive side.  The argument is
the byte stream the peer delivers on the shared socket before closing; the
result pairs the returned value (`none` for the source's `return None`) with
the bytes left unread in the stream, since the socket is reused.  The send
side (lines 132-146) only fails on socket exceptions and is not modelled.
The source decodes the body with `errors="replace"`, which never fails, so
the decode step is the identity here. -/
def http_get (stream : List Char) : Option (List Char) × List Char :=
  match readHeader [] stream with
  | none => (none, [])
  | some hr =>
    let parts := splitOnce crlfTerm hr.1
    let header_part := parts.1
    let body_already := parts.2.getD []
    if containsSeq ("200".toList) (firstLineOf header_part) then
      let content_length := contentLengthOf header_part
      let r := recvLoop (content_length - body_already.length) hr.2 body_already
      (some r.1, r.2)
    else (none, hr.2)

/-- One page of the ranking listing, as the crawler sees it after JSON
decoding: the `games` field and the truthiness of `parsed.get("next")`.
A `none` page stands for any of: transport failure (`http_get` returned
`None`), JSON decode failure, or a payload without a `"games"` field —
the crawl `break`s identically on all three. -/
structure Page where
  games : List Nat
  next : Bool

/-- The crawl loop of `get_top_n_games` (src/client.py lines 81-117): while
fewer than `n` ids are collected, consume the next page response; stop on a
failed page, an empty page, or a falsy `"next"` marker, appending at most
`n - collected` ids from each page. -/
def getTopNAux (n : Nat) (pages : List (Option Page)) (acc : List Nat) : List Nat :=
  if n ≤ acc.length then acc
  else
    match pages with
    | [] => acc
    | none :: _ => acc
    | some pg :: rest =>
      if pg.games.isEmpty then acc
      else
        let acc2 := acc ++ pg.games.take (n - acc.length)
        if pg.next then getTopNAux n rest acc2 else acc2

/-- `get_top_n_games` (src/client.py lines 71-119) over the sequence of page
responses the server will produce. -/
def get_top_n_games (n : Nat) (pages : List (Option Page)) : List Nat :=
  getTopNAux n pages []

/-- Number of ids available from the page sequence before a stopping
condition (failed page, empty page, or absent `next` marker). -/
def availIds : List (Option Page) → Nat
  | [] => 0
  | none :: _ => 0
  | some pg :: rest =>
    if pg.games.isEmpty then 0
    else pg.games.length + (if pg.next then availIds rest else 0)

/-- The fields `analysis_immortals` / `analysis_top_meta` read from a record's
`"game_stats"` object, each optional (the source uses `.get` with defaults:
`"UnknownAuth"`, `0`, `0`, `[]`).  A cannon placement is the raw JSON entry;
entries that are not lists of length ≥ 2 are skipped by the source, which the
embedding represents by the too-short cases. -/
structure GameStats where
  auth : Option (List Char)
  ships_sunk : Option Int
  ships_escaped : Option Int
  cannons : Option (List (List Int))

/-- A decoded `/api/game/<id>` payload: the `"game_stats"` field, optional
(the source uses `info.get("game_stats", {})`). -/
structure GameInfo where
  game_stats : Option GameStats

/-- `get_game_info` (src/client.py lines 264-280).  `json.loads` is Python
stdlib, modelled as the abstract decoder argument, which also returns `none`
on `JSONDecodeError`; `if not data` makes both `None` and the empty string
count as failure. -/
def get_game_info (decodeJson : List Char → Option GameInfo) (stream : List Char) :
    Option GameInfo :=
  match (http_get stream).1 with
  | none => none
  | some data => if data.isEmpty then none else decodeJson data

/-- Python `dict` lookup on an insertion-ordered association list. -/
def lookupKey {β : Type} : List (List Char × β) → List Char → Option β
  | [], _ => none
  | (k, b) :: rest, key => if k = key then some b else lookupKey rest key

/-- Python `dict` value replacement at an existing key (keys are unique, so
replacing the first occurrence is exact). -/
def updateKey {β : Type} : List (List Char × β) → List Char → β → List (List Char × β)
  | [], _, _ => []
  | (k, b) :: rest, key, nb =>
    if k = key then (k, nb) :: rest else (k, b) :: updateKey rest key nb

/-- The shared bucket-update idiom of both analyses (src/client.py lines
235-239 and 331-335): if the key is absent, insert a zero-initialised bucket;
then increment the bucket at the key. -/
def dictAdd {β : Type} (d : List (List Char × β)) (key : List Char) (init : β)
    (upd : β → β) : List (List Char × β) :=
  let d1 := if (lookupKey d key).isNone then d ++ [(key, init)] else d
  match lookupKey d1 key with
  | some b => updateKey d1 key (upd b)
  | none => d1

/-- An `analysis_immortals` bucket: `{"count": ..., "sum_sunk": ...}` (the sum
starts at the float `0.0`; floats are modelled as exact rationals). -/
structure Buck where
  count : Nat
  sum_sunk : Rat

/-- One iteration of the `analysis_immortals` record loop (src/client.py lines
222-239); a falsy `info` (fetch failure) is skipped with `continue`. -/
def immortalsStep (gas : List (List Char × Buck)) (info : Option GameInfo) :
    List (List Char × Buck) :=
  match info with
  | none => gas
  | some i =>
    let game_stats := i.game_stats.getD ⟨none, none, none, none⟩
    let auth := game_stats.auth.getD ("UnknownAuth".toList)
    let ships_sunk := game_stats.ships_sunk.getD 0
    dictAdd gas auth ⟨0, 0⟩ (fun b => ⟨b.count + 1, b.sum_sunk + (ships_sunk : Rat)⟩)

/-- The `gas_data` dict after the whole record loop; the analyses are
embedded over the list of per-id fetch results (`get_game_info` outcomes),
which is where the source's network loop meets its aggregation logic. -/
def gasData (infos : List (Option GameInfo)) : List (List Char × Buck) :=
  infos.foldl immortalsStep []

/-- The `result_list` of `analysis_immortals` (src/client.py lines 242-247):
`(auth, count, mean)` per bucket, with the count-zero guard on the division. -/
def immortalsList (infos : List (Option GameInfo)) : List (List Char × Nat × Rat) :=
  (gasData infos).map
    (fun p => (p.1, p.2.count, if 0 < p.2.count then p.2.sum_sunk / (p.2.count : Rat) else 0))

/-- `result_list.sort(key=lambda x: x[1], reverse=True)` (line 250): Python's
sort is stable, and `reverse=True` keeps equal-key elements in first-seen
order, which is exactly `mergeSort` with the reversed comparison. -/
def immortalsSorted (infos : List (Option GameInfo)) : List (List Char × Nat × Rat) :=
  (immortalsList infos).mergeSort (fun x y => decide (y.2.1 ≤ x.2.1))

/-- Round a rational to the nearest integer, ties to even (the rounding used
when Python formats a float with `"{:.2f}"`, modelled over exact rationals). -/
def roundHalfEven (x : Rat) : Int :=
  let fl := ⌊x⌋
  let fr := x - (fl : Rat)
  if fr < 1 / 2 then fl
  else if 1 / 2 < fr then fl + 1
  else if fl % 2 = 0 then fl else fl + 1

/-- The two-digit fractional part of a `.2f` rendering. -/
def twoDigits (n : Nat) : List Char :=
  [Char.ofNat (48 + n / 10 % 10), Char.ofNat (48 + n % 10)]

/-- Python `f"{q:.2f}"`, modelled over exact rationals: scale by 100, round
half-to-even, and print with exactly two decimals. -/
def formatRat2 (q : Rat) : List Char :=
  let scaled := roundHalfEven (q * 100)
  if scaled < 0 then
    '-' :: (natToChars (scaled.natAbs / 100) ++ '.' :: twoDigits (scaled.natAbs % 100))
  else natToChars (scaled.toNat / 100) ++ '.' :: twoDigits (scaled.toNat % 100)

/-- The CSV lines of `analysis_immortals` (src/client.py lines 254-259):
commas are removed from `auth` before emission. -/
def analysis_immortals (infos : List (Option GameInfo)) : List (List Char) :=
  (immortalsSorted infos).map
    (fun r => (r.1.filter (fun c => c != ',')) ++ ',' :: (natToChars r.2.1 ++ ',' :: formatRat2 r.2.2))

/-- `row_counters` (src/client.py lines 308-313): a dict from row index to
cannon count; entries that are not pairs are skipped. -/
def bumpRow : List (Int × Nat) → Int → List (Int × Nat)
  | [], r => [(r, 1)]
  | (k, v) :: rest, r =>
    if k = r then (k, v + 1) :: rest else (k, v) :: bumpRow rest r

/-- `row_counters.get(r, 0)`. -/
def lookupRow : List (Int × Nat) → Int → Nat
  | [], _ => 0
  | (k, v) :: rest, r => if k = r then v else lookupRow rest r

/-- Fold of the cannon-placement loop (src/client.py lines 309-313). -/
def rowCountersOf (cannons : List (List Int)) : List (Int × Nat) :=
  cannons.foldl
    (fun m cpos =>
      match cpos with
      | r :: _ :: _ => bumpRow m r
      | _ => m)
    []

/-- `row_counts` (src/client.py lines 315-317): the counts of the 8 fixed rows. -/
def rowCountsOf (cannons : List (List Int)) : List Nat :=
  (List.range 8).map (fun (r : Nat) => lookupRow (rowCountersOf cannons) (Int.ofNat r))

/-- One step of the histogram loop (src/client.py lines 321-326): a row count
in `0..7` increments its own bin, anything larger is clamped into bin 7. -/
def histStep (h : List Nat) (c : Nat) : List Nat :=
  if c ≤ 7 then h.set c (h.getD c 0 + 1) else h.set 7 (h.getD 7 0 + 1)

/-- The 8-bin histogram `hist` (src/client.py lines 320-326). -/
def histOf (rcs : List Nat) : List Nat :=
  rcs.foldl histStep (List.replicate 8 0)

/-- `placement_str` (src/client.py line 329): the histogram bins printed with
`str` and joined. -/
def placementStrOf (cannons : List (List Int)) : List Char :=
  ((histOf (rowCountsOf cannons)).map natToChars).flatten

/-- An `analysis_top_meta` bucket: `{"count": ..., "sum_escaped": ...}` (this
sum starts at the integer `0`). -/
structure BuckB where
  count : Nat
  sum_escaped : Int
deriving DecidableEq

/-- One iteration of the `analysis_top_meta` record loop (src/client.py lines
296-335). -/
def topMetaStep (pd : List (List Char × BuckB)) (info : Option GameInfo) :
    List (List Char × BuckB) :=
  match info with
  | none => pd
  | some i =>
    let game_stats := i.game_stats.getD ⟨none, none, none, none⟩
    let cannons := game_stats.cannons.getD []
    let ships_escaped := game_stats.ships_escaped.getD 0
    let placement_str := placementStrOf cannons
    dictAdd pd placement_str ⟨0, 0⟩
      (fun b => ⟨b.count + 1, b.sum_escaped + ships_escaped⟩)

/-- The `placement_data` dict after the whole record loop. -/
def placementData (infos : List (Option GameInfo)) : List (List Char × BuckB) :=
  infos.foldl topMetaStep []

/-- The `result_list` of `analysis_top_meta` (src/client.py lines 338-343). -/
def topMetaList (infos : List (Option GameInfo)) : List (List Char × Rat) :=
  (placementData infos).map
    (fun p => (p.1, if 0 < p.2.count then (p.2.sum_escaped : Rat) / (p.2.count : Rat) else 0))

/-- `result_list.sort(key=lambda x: x[1])` (line 346): stable ascending sort
by the mean. -/
def topMetaSorted (infos : List (Option GameInfo)) : List (List Char × Rat) :=
  (topMetaList infos).mergeSort (fun x y => decide (x.2 ≤ y.2))

/-- The CSV lines of `analysis_top_meta` (src/client.py lines 348-351). -/
def analysis_top_meta (infos : List (Option GameInfo)) : List (List Char) :=
  (topMetaSorted infos).map (fun r => r.1 ++ ',' :: formatRat2 r.2)


theorem startsWith_nil (l : List Char) : startsWith l [] = true := by
  cases l <;> rfl

theorem startsWith_refl (xs : List Char) : startsWith xs xs = true := by
  induction xs with
  | nil => rfl
  | cons x xs ih => simp [startsWith, ih]

theorem startsWith_append_of (p xs ys : List Char) (h : startsWith xs p = true) :
    startsWith (xs ++ ys) p = true := by
  induction p generalizing xs with
  | nil => exact startsWith_nil _
  | cons a p ih =>
    cases xs with
    | nil => simp [startsWith] at h
    | cons x xs =>
      simp only [startsWith, Bool.and_eq_true] at h
      show (x == a && startsWith (xs ++ ys) p) = true
      simp only [Bool.and_eq_true]
      exact ⟨h.1, ih xs h.2⟩

theorem startsWith_append_long (p xs ys : List Char) (h : p.length ≤ xs.length) :
    startsWith (xs ++ ys) p = startsWith xs p := by
  induction p generalizing xs with
  | nil => rw [startsWith_nil, startsWith_nil]
  | cons a p ih =>
    cases xs with
    | nil => simp at h
    | cons x xs =>
      show (x == a && startsWith (xs ++ ys) p) = (x == a && startsWith xs p)
      rw [ih xs (by simpa using h)]

theorem containsSeq_nil_pat (xs : List Char) : containsSeq [] xs = true := by
  cases xs <;> simp [containsSeq, startsWith]

theorem containsSeq_cons (p : List Char) (x : Char) (xs : List Char) :
    containsSeq p (x :: xs) = (startsWith (x :: xs) p || containsSeq p xs) := rfl

theorem containsSeq_append_left (p xs ys : List Char)
    (h : containsSeq p (xs ++ ys) = false) : containsSeq p xs = false := by
  induction xs with
  | nil =>
    cases p with
    | nil => rw [containsSeq_nil_pat] at h; exact absurd h (by simp)
    | cons a ps => rfl
  | cons x xs ih =>
    rw [List.cons_append, containsSeq_cons] at h
    obtain ⟨ha, hb⟩ := Bool.or_eq_false_iff.mp h
    rw [containsSeq_cons]
    refine Bool.or_eq_false_iff.mpr ⟨?_, ih hb⟩
    by_contra hs
    rw [Bool.not_eq_false] at hs
    exact absurd (ha.symm.trans (startsWith_append_of p (x :: xs) ys hs)) (by simp)

theorem containsSeq_append_self (xs p : List Char) : containsSeq p (xs ++ p) = true := by
  induction xs with
  | nil =>
    cases p with
    | nil => rfl
    | cons a ps => simp [containsSeq_cons, startsWith_refl]
  | cons x xs ih => simp [containsSeq_cons, ih]

theorem readHeader_eq (hdr : List Char) : ∀ (acc rest : List Char),
    containsSeq crlfTerm ((acc ++ hdr) ++ ['\r', '\n', '\r']) = false →
    readHeader acc (hdr ++ ('\r' :: '\n' :: '\r' :: '\n' :: rest)) =
      some ((acc ++ hdr) ++ crlfTerm, rest) := by
  induction hdr with
  | nil =>
    intro acc rest h
    simp only [List.append_nil] at h
    have h1 : containsSeq crlfTerm (acc ++ ['\r']) = false :=
      containsSeq_append_left _ _ ['\n', '\r'] (by simpa using h)
    have h2 : containsSeq crlfTerm ((acc ++ ['\r']) ++ ['\n']) = false :=
      containsSeq_append_left _ _ ['\r'] (by simpa using h)
    have h3 : containsSeq crlfTerm (((acc ++ ['\r']) ++ ['\n']) ++ ['\r']) = false := by
      simpa using h
    have e : ((((acc ++ ['\r']) ++ ['\n']) ++ ['\r']) ++ ['\n']) = acc ++ crlfTerm := by
      simp [crlfTerm]
    have h4 : containsSeq crlfTerm ((((acc ++ ['\r']) ++ ['\n']) ++ ['\r']) ++ ['\n']) = true := by
      rw [e]; exact containsSeq_append_self acc crlfTerm
    simp only [List.nil_append, readHeader, h1, h2, h3, h4, Bool.false_eq_true, if_false, if_true]
    simp [e, crlfTerm]
  | cons c hdr ih =>
    intro acc rest h
    have h1 : containsSeq crlfTerm (acc ++ [c]) = false := by
      refine containsSeq_append_left _ _ (hdr ++ ['\r', '\n', '\r']) ?_
      have e : (acc ++ [c]) ++ (hdr ++ ['\r', '\n', '\r']) =
          (acc ++ (c :: hdr)) ++ ['\r', '\n', '\r'] := by simp
      rw [e]; exact h
    have h2 : containsSeq crlfTerm (((acc ++ [c]) ++ hdr) ++ ['\r', '\n', '\r']) = false := by
      have e : ((acc ++ [c]) ++ hdr) = acc ++ (c :: hdr) := by simp
      rw [e]; exact h
    rw [List.cons_append]
    show (if containsSeq crlfTerm (acc ++ [c]) = true
        then some (acc ++ [c], hdr ++ ('\r' :: '\n' :: '\r' :: '\n' :: rest))
        else readHeader (acc ++ [c]) (hdr ++ ('\r' :: '\n' :: '\r' :: '\n' :: rest))) =
      some ((acc ++ (c :: hdr)) ++ crlfTerm, rest)
    rw [h1]
    simp only [Bool.false_eq_true, if_false]
    rw [ih (acc ++ [c]) rest h2]
    simp

theorem splitOnce_cons (sep : List Char) (x : Char) (xs : List Char) :
    splitOnce sep (x :: xs) =
      if startsWith (x :: xs) sep then ([], some ((x :: xs).drop sep.length))
      else ((x :: (splitOnce sep xs).1, (splitOnce sep xs).2)) := rfl

theorem splitOnce_term (hdr : List Char)
    (h : containsSeq crlfTerm (hdr ++ ['\r', '\n', '\r']) = false) :
    splitOnce crlfTerm (hdr ++ crlfTerm) = (hdr, some []) := by
  induction hdr with
  | nil => decide
  | cons c hdr ih =>
    rw [List.cons_append, splitOnce_cons]
    rw [List.cons_append, containsSeq_cons] at h
    obtain ⟨ha, hb⟩ := Bool.or_eq_false_iff.mp h
    have hsw : startsWith (c :: (hdr ++ crlfTerm)) crlfTerm = false := by
      have e : c :: (hdr ++ crlfTerm) = (c :: (hdr ++ ['\r', '\n', '\r'])) ++ ['\n'] := by
        simp [crlfTerm]
      rw [e, startsWith_append_long crlfTerm _ _ (by simp [crlfTerm])]
      exact ha
    rw [hsw]
    simp only [Bool.false_eq_true, if_false]
    rw [ih hb]

theorem recvLoopAux_nil (fuel : Nat) (L : Int) (acc : List Char) :
    recvLoopAux fuel L [] acc = (acc, []) := by
  cases fuel with
  | zero => rfl
  | succ n =>
    show (if L ≤ 0 then (acc, ([] : List Char)) else (acc, [])) = (acc, [])
    split <;> rfl

theorem recvLoop_nonpos (L : Int) (s acc : List Char) (h : L ≤ 0) :
    recvLoop L s acc = (acc, s) := by
  show recvLoopAux (s.length + 1) L s acc = (acc, s)
  rw [show recvLoopAux (s.length + 1) L s acc =
    (if L ≤ 0 then (acc, s) else
      match s with
      | [] => (acc, [])
      | c :: rest =>
        recvLoopAux s.length (L - ((c :: rest).take L.toNat).length)
          ((c :: rest).drop L.toNat) (acc ++ (c :: rest).take L.toNat)) from rfl]
  rw [if_pos h]

theorem recvLoop_all (L : Int) (s acc : List Char) (h : (s.length : Int) < L) :
    recvLoop L s acc = (acc ++ s, []) := by
  cases s with
  | nil =>
    show recvLoopAux 1 L [] acc = (acc ++ [], [])
    rw [recvLoopAux_nil]
    simp
  | cons c rest =>
    show recvLoopAux (rest.length + 1 + 1) L (c :: rest) acc = (acc ++ (c :: rest), [])
    have h' : ((rest.length : Int) + 1) < L := by simpa using h
    have hpos : ¬ (L ≤ 0) := by omega
    have hlen : (c :: rest).length ≤ L.toNat := by simp; omega
    rw [show recvLoopAux (rest.length + 1 + 1) L (c :: rest) acc =
      (if L ≤ 0 then (acc, c :: rest) else
        recvLoopAux (rest.length + 1) (L - ((c :: rest).take L.toNat).length)
          ((c :: rest).drop L.toNat) (acc ++ (c :: rest).take L.toNat)) from rfl]
    rw [if_neg hpos, List.take_of_length_le hlen, List.drop_eq_nil_of_le hlen]
    rw [recvLoopAux_nil]

theorem http_get_split (hdr rest : List Char)
    (hne : containsSeq crlfTerm (hdr ++ ['\r', '\n', '\r']) = false) :
    http_get (hdr ++ (crlfTerm ++ rest)) =
      if containsSeq ("200".toList) (firstLineOf hdr) then
        (some (recvLoop (contentLengthOf hdr) rest []).1,
          (recvLoop (contentLengthOf hdr) rest []).2)
      else (none, rest) := by
  have hr := readHeader_eq hdr [] rest (by simpa using hne)
  simp only [List.nil_append] at hr
  unfold http_get
  rw [show hdr ++ (crlfTerm ++ rest) = hdr ++ ('\r' :: '\n' :: '\r' :: '\n' :: rest) by
    simp [crlfTerm]]
  rw [hr]
  simp only [splitOnce_term hdr hne, Option.getD_some, List.length_nil, Nat.cast_zero, sub_zero]

theorem findContentLength_cons (ln : List Char) (rest : List (List Char)) :
    findContentLength (ln :: rest) =
      if startsWith (ln.map Char.toLower) ("content-length:".toList) then
        match splitOnce [':'] ln with
        | (_, some v) => (parseIntPy (stripChars v)).getD 0
        | (_, none) => 0
      else findContentLength rest := rfl

theorem findContentLength_absent (lines : List (List Char))
    (h : ∀ ln ∈ lines, startsWith (ln.map Char.toLower) ("content-length:".toList) = false) :
    findContentLength lines = 0 := by
  induction lines with
  | nil => rfl
  | cons ln rest ih =>
    rw [findContentLength_cons, h ln (List.mem_cons_self ln rest)]
    simp only [Bool.false_eq_true, if_false]
    exact ih (fun l hl => h l (List.mem_cons_of_mem ln hl))

theorem findContentLength_skip (pre rest : List (List Char))
    (h : ∀ ln ∈ pre, startsWith (ln.map Char.toLower) ("content-length:".toList) = false) :
    findContentLength (pre ++ rest) = findContentLength rest := by
  induction pre with
  | nil => rfl
  | cons ln tl ih =>
    rw [List.cons_append, findContentLength_cons, h ln (List.mem_cons_self ln tl)]
    simp only [Bool.false_eq_true, if_false]
    exact ih (fun l hl => h l (List.mem_cons_of_mem ln hl))

theorem splitOnce_colon (a : List Char) : ∀ (rest : List Char), ':' ∉ a →
    splitOnce [':'] (a ++ ':' :: rest) = (a, some rest) := by
  induction a with
  | nil =>
    intro rest _
    rw [List.nil_append, splitOnce_cons]
    simp [startsWith, startsWith_nil]
  | cons c a ih =>
    intro rest h
    rw [List.cons_append, splitOnce_cons]
    have hc : (c == ':') = false := by
      simp only [beq_eq_false_iff_ne, ne_eq]
      exact fun hcc => h (by rw [hcc]; exact List.mem_cons_self _ _)
    have hsw : startsWith (c :: (a ++ ':' :: rest)) [':'] = false := by
      show (c == ':' && startsWith (a ++ ':' :: rest) []) = false
      rw [hc, Bool.false_and]
    rw [hsw]
    simp only [Bool.false_eq_true, if_false]
    rw [ih rest (fun hm => h (List.mem_cons_of_mem c hm))]

theorem findContentLength_found (a v : List Char) (rest : List (List Char)) (n : Int)
    (ha : a.map Char.toLower = ("content-length".toList))
    (hv : parseIntPy (stripChars v) = some n) :
    findContentLength ((a ++ ':' :: v) :: rest) = n := by
  have hnc : ':' ∉ a := by
    intro hm
    have h1 : Char.toLower ':' ∈ a.map Char.toLower := List.mem_map_of_mem Char.toLower hm
    rw [ha] at h1
    exact absurd h1 (by decide)
  have hsw : startsWith ((a ++ ':' :: v).map Char.toLower) ("content-length:".toList) = true := by
    rw [List.map_append]
    have e : (List.map Char.toLower a) ++ List.map Char.toLower (':' :: v) =
        ("content-length:".toList) ++ List.map Char.toLower v := by
      rw [ha]
      simp
    rw [e]
    exact startsWith_append_of _ _ _ (startsWith_refl _)
  rw [findContentLength_cons, hsw]
  simp only [if_true]
  rw [splitOnce_colon a v hnc]
  show (parseIntPy (stripChars v)).getD 0 = n
  rw [hv]
  rfl

theorem getTopNAux_length (pages : List (Option Page)) : ∀ (n : Nat) (acc : List Nat),
    acc.length ≤ n →
    (getTopNAux n pages acc).length = min n (acc.length + availIds pages) := by
  induction pages with
  | nil =>
    intro n acc h
    unfold getTopNAux
    simp only [availIds]
    split
    · omega
    · omega
  | cons p rest ih =>
    intro n acc h
    unfold getTopNAux
    by_cases hn : n ≤ acc.length
    · rw [if_pos hn]
      have : acc.length = n := le_antisymm h hn
      omega
    · rw [if_neg hn]
      cases p with
      | none => simp only [availIds]; omega
      | some pg =>
        cases hpe : pg.games.isEmpty
        · simp only [hpe, Bool.false_eq_true, if_false]
          have hg : pg.games.length ≠ 0 := by
            simpa [List.isEmpty_iff_length_eq_zero] using hpe
          cases hnx : pg.next
          · simp only [hnx, Bool.false_eq_true, if_false, availIds, hpe]
            simp only [List.length_append, List.length_take]
            omega
          · simp only [hnx, if_true]
            have hlen2 : (acc ++ pg.games.take (n - acc.length)).length ≤ n := by
              simp only [List.length_append, List.length_take]
              omega
            rw [ih n _ hlen2]
            simp only [availIds, hpe, hnx, Bool.false_eq_true, if_false, if_true,
              List.length_append, List.length_take]
            omega
        · simp only [hpe, availIds, eq_self_iff_true, if_true]
          omega

theorem sum_set_succ (l : List Nat) : ∀ (i : Nat), i < l.length →
    (l.set i (l.getD i 0 + 1)).sum = l.sum + 1 := by
  induction l with
  | nil => intro i hi; simp at hi
  | cons x xs ih =>
    intro i hi
    cases i with
    | zero => simp [List.getD]; omega
    | succ j =>
      simp only [List.getD_cons_succ, List.set_cons_succ, List.sum_cons]
      rw [ih j (by simpa using hi)]
      omega

theorem histStep_length (h : List Nat) (c : Nat) : (histStep h c).length = h.length := by
  unfold histStep
  split <;> simp

theorem histStep_sum (h : List Nat) (c : Nat) (hl : h.length = 8) :
    (histStep h c).sum = h.sum + 1 := by
  unfold histStep
  split
  · exact sum_set_succ h c (by omega)
  · exact sum_set_succ h 7 (by omega)

theorem foldl_histStep_inv (rcs : List Nat) : ∀ (h : List Nat), h.length = 8 →
    (rcs.foldl histStep h).length = 8 ∧ (rcs.foldl histStep h).sum = h.sum + rcs.length := by
  induction rcs with
  | nil => intro h hl; simpa using hl
  | cons c rcs ih =>
    intro h hl
    rw [List.foldl_cons]
    have step := ih (histStep h c) (by rw [histStep_length]; exact hl)
    refine ⟨step.1, ?_⟩
    rw [step.2, histStep_sum h c hl]
    simp only [List.length_cons]
    omega

theorem rowCountsOf_length (cannons : List (List Int)) : (rowCountsOf cannons).length = 8 := by
  rw [rowCountsOf, List.length_map, List.length_range]

theorem histOf_length (cannons : List (List Int)) :
    (histOf (rowCountsOf cannons)).length = 8 :=
  (foldl_histStep_inv (rowCountsOf cannons) (List.replicate 8 0) (by simp)).1

theorem histOf_sum (cannons : List (List Int)) :
    (histOf (rowCountsOf cannons)).sum = 8 := by
  have h := (foldl_histStep_inv (rowCountsOf cannons) (List.replicate 8 0) (by simp)).2
  rw [histOf, h, rowCountsOf_length]
  simp

theorem histOf_mem_le (cannons : List (List Int)) (x : Nat)
    (hx : x ∈ histOf (rowCountsOf cannons)) : x ≤ 8 := by
  have := List.single_le_sum (l := histOf (rowCountsOf cannons)) (fun y _ => Nat.zero_le y) x hx
  rw [histOf_sum] at this
  exact this

theorem natToChars_lt10 (n : Nat) (h : n < 10) : natToChars n = [Char.ofNat (48 + n)] := by
  show natToCharsAux (n + 1) n [] = [Char.ofNat (48 + n)]
  rw [show natToCharsAux (n + 1) n [] =
    (if n < 10 then Char.ofNat (48 + n) :: [] else
      natToCharsAux n (n / 10) (Char.ofNat (48 + n % 10) :: [])) from rfl]
  rw [if_pos h]

theorem digitSum_append (s t : List Char) : digitSum (s ++ t) = digitSum s + digitSum t := by
  simp [digitSum]

theorem digitSum_natToChars_le9 (x : Nat) (h : x ≤ 9) : digitSum (natToChars x) = x := by
  rw [natToChars_lt10 x (by omega)]
  interval_cases x <;> decide

theorem length_natToChars_le9 (x : Nat) (h : x ≤ 9) : (natToChars x).length = 1 := by
  rw [natToChars_lt10 x (by omega)]
  rfl

theorem placementStrOf_length (cannons : List (List Int)) :
    (placementStrOf cannons).length = 8 := by
  unfold placementStrOf
  rw [List.length_flatten]
  have hmem : ∀ s ∈ (histOf (rowCountsOf cannons)).map natToChars, s.length = 1 := by
    intro s hs
    obtain ⟨x, hx, rfl⟩ := List.mem_map.mp hs
    exact length_natToChars_le9 x (by have := histOf_mem_le cannons x hx; omega)
  rw [List.map_map]
  have : List.map (List.length ∘ natToChars) (histOf (rowCountsOf cannons)) =
      List.map (fun _ => 1) (histOf (rowCountsOf cannons)) := by
    apply List.map_congr_left
    intro a ha
    exact length_natToChars_le9 a (by have := histOf_mem_le cannons a ha; omega)
  rw [this]
  have h2 : ∀ (l : List Nat), (List.map (fun _ => (1 : Nat)) l).sum = l.length := by
    intro l
    induction l with
    | nil => rfl
    | cons a l ih => simp [ih]; omega
  rw [h2, histOf_length]

theorem digitSum_flatten_natToChars (hist : List Nat) (hb : ∀ x ∈ hist, x ≤ 9) :
    digitSum ((hist.map natToChars).flatten) = hist.sum := by
  induction hist with
  | nil => rfl
  | cons x hist ih =>
    simp only [List.map_cons, List.flatten_cons, List.sum_cons]
    rw [digitSum_append, digitSum_natToChars_le9 x (hb x (List.mem_cons_self x hist)),
      ih (fun y hy => hb y (List.mem_cons_of_mem x hy))]

theorem placementStrOf_digitSum (cannons : List (List Int)) :
    digitSum (placementStrOf cannons) = 8 := by
  unfold placementStrOf
  rw [digitSum_flatten_natToChars _ (fun x hx => by have := histOf_mem_le cannons x hx; omega)]
  exact histOf_sum cannons

theorem placementStrOf_chars (cannons : List (List Int)) (c : Char)
    (hc : c ∈ placementStrOf cannons) : '0' ≤ c ∧ c ≤ '8' := by
  unfold placementStrOf at hc
  obtain ⟨s, hs, hcs⟩ := List.mem_flatten.mp hc
  obtain ⟨x, hx, rfl⟩ := List.mem_map.mp hs
  have hb : x ≤ 8 := histOf_mem_le cannons x hx
  rw [natToChars_lt10 x (by omega)] at hcs
  rw [List.mem_singleton] at hcs
  subst hcs
  interval_cases x <;> exact ⟨by decide, by decide⟩

theorem lookupKey_append_none {β : Type} (l : List (List Char × β)) (key : List Char) (b0 : β)
    (h : lookupKey l key = none) : lookupKey (l ++ [(key, b0)]) key = some b0 := by
  induction l with
  | nil => simp [lookupKey]
  | cons kb rest ih =>
    obtain ⟨k, b⟩ := kb
    rw [show lookupKey ((k, b) :: rest) key =
      if k = key then some b else lookupKey rest key from rfl] at h
    by_cases hk : k = key
    · rw [if_pos hk] at h; exact absurd h (by simp)
    · rw [if_neg hk] at h
      rw [List.cons_append]
      rw [show lookupKey ((k, b) :: (rest ++ [(key, b0)])) key =
        if k = key then some b else lookupKey (rest ++ [(key, b0)]) key from rfl]
      rw [if_neg hk]
      exact ih h

theorem updateKey_append_none {β : Type} (l : List (List Char × β)) (key : List Char) (b0 nb : β)
    (h : lookupKey l key = none) : updateKey (l ++ [(key, b0)]) key nb = l ++ [(key, nb)] := by
  induction l with
  | nil => simp [updateKey]
  | cons kb rest ih =>
    obtain ⟨k, b⟩ := kb
    by_cases hk : k = key
    · simp [lookupKey, hk] at h
    · rw [show lookupKey ((k, b) :: rest) key =
        if k = key then some b else lookupKey rest key from rfl, if_neg hk] at h
      rw [List.cons_append]
      rw [show updateKey ((k, b) :: (rest ++ [(key, b0)])) key nb =
        if k = key then (k, nb) :: (rest ++ [(key, b0)])
        else (k, b) :: updateKey (rest ++ [(key, b0)]) key nb from rfl]
      rw [if_neg hk, ih h, List.cons_append]

theorem updateKey_mem {β : Type} (l : List (List Char × β)) (key : List Char) (nb : β)
    (p : List Char × β) (hp : p ∈ updateKey l key nb) : p.2 = nb ∨ p ∈ l := by
  induction l with
  | nil => simp [updateKey] at hp
  | cons kb rest ih =>
    obtain ⟨k, b⟩ := kb
    rw [show updateKey ((k, b) :: rest) key nb =
      if k = key then (k, nb) :: rest else (k, b) :: updateKey rest key nb from rfl] at hp
    by_cases hk : k = key
    · rw [if_pos hk] at hp
      rcases List.mem_cons.mp hp with h1 | h1
      · left; rw [h1]
      · right; exact List.mem_cons_of_mem _ h1
    · rw [if_neg hk] at hp
      rcases List.mem_cons.mp hp with h1 | h1
      · right; rw [h1]; exact List.mem_cons_self _ _
      · rcases ih h1 with h2 | h2
        · left; exact h2
        · right; exact List.mem_cons_of_mem _ h2

theorem dictAdd_mem {β : Type} (P : β → Prop) (d : List (List Char × β)) (key : List Char)
    (init : β) (upd : β → β) (hd : ∀ p ∈ d, P p.2) (hupd : ∀ b, P (upd b)) :
    ∀ p ∈ dictAdd d key init upd, P p.2 := by
  intro p hp
  unfold dictAdd at hp
  cases hl : lookupKey d key with
  | some b =>
    simp only [hl, Option.isNone_some, Bool.false_eq_true, if_false] at hp
    rcases updateKey_mem d key (upd b) p hp with h1 | h1
    · rw [h1]; exact hupd b
    · exact hd p h1
  | none =>
    simp only [hl, Option.isNone_none, if_true, lookupKey_append_none d key init hl] at hp
    rw [updateKey_append_none d key init (upd init) hl] at hp
    rcases List.mem_append.mp hp with h1 | h1
    · exact hd p h1
    · rw [List.mem_singleton] at h1
      rw [h1]
      exact hupd init

theorem gasData_counts (infos : List (Option GameInfo)) :
    ∀ p ∈ gasData infos, 1 ≤ p.2.count := by
  have main : ∀ (l : List (Option GameInfo)) (gas : List (List Char × Buck)),
      (∀ p ∈ gas, 1 ≤ p.2.count) → ∀ p ∈ l.foldl immortalsStep gas, 1 ≤ p.2.count := by
    intro l
    induction l with
    | nil => intro gas hg; rw [List.foldl_nil]; exact hg
    | cons info rest ih =>
      intro gas hg
      rw [List.foldl_cons]
      refine ih (immortalsStep gas info) ?_
      cases info with
      | none => exact hg
      | some i =>
        simp only [immortalsStep]
        refine dictAdd_mem (fun b => 1 ≤ b.count) gas _ _ _ hg ?_
        intro b
        simp
  exact main infos [] (by simp)

theorem placementData_counts (infos : List (Option GameInfo)) :
    ∀ p ∈ placementData infos, 1 ≤ p.2.count := by
  have main : ∀ (l : List (Option GameInfo)) (pd : List (List Char × BuckB)),
      (∀ p ∈ pd, 1 ≤ p.2.count) → ∀ p ∈ l.foldl topMetaStep pd, 1 ≤ p.2.count := by
    intro l
    induction l with
    | nil => intro pd hg; rw [List.foldl_nil]; exact hg
    | cons info rest ih =>
      intro pd hg
      rw [List.foldl_cons]
      refine ih (topMetaStep pd info) ?_
      cases info with
      | none => exact hg
      | some i =>
        simp only [topMetaStep]
        refine dictAdd_mem (fun b => 1 ≤ b.count) pd _ _ _ hg ?_
        intro b
        simp
  exact main infos [] (by simp)

theorem filter_mergeSort_eq {α : Type} (le : α → α → Bool)
    (htrans : ∀ (a b c : α), le a b = true → le b c = true → le a c = true)
    (htot : ∀ (a b : α), (le a b || le b a) = true)
    (p : α → Bool) (hp : ∀ x y, p x = true → p y = true → le x y = true)
    (l : List α) : (l.mergeSort le).filter p = l.filter p := by
  have hc1 : (l.filter p).Sublist l := List.filter_sublist l
  have hpw : (l.filter p).Pairwise (fun a b => le a b = true) :=
    List.pairwise_of_forall_mem_list
      (fun a ha b hb => hp a b (List.of_mem_filter ha) (List.of_mem_filter hb))
  have hsub := List.sublist_mergeSort htrans htot hpw hc1
  have hself : (l.filter p).filter p = l.filter p :=
    List.filter_eq_self.mpr (fun a ha => List.of_mem_filter ha)
  have hsub2 : (l.filter p).Sublist ((l.mergeSort le).filter p) := by
    have h3 := List.Sublist.filter p hsub
    rw [hself] at h3
    exact h3
  have hlen : ((l.mergeSort le).filter p).length = (l.filter p).length :=
    ((List.mergeSort_perm l le).filter p).length_eq
  exact (hsub2.eq_of_length hlen.symm).symm

theorem immortalsLe_trans (a b c : List Char × Nat × Rat)
    (hab : decide (b.2.1 ≤ a.2.1) = true) (hbc : decide (c.2.1 ≤ b.2.1) = true) :
    decide (c.2.1 ≤ a.2.1) = true := by
  simp only [decide_eq_true_eq] at hab hbc ⊢
  omega

theorem immortalsLe_total (a b : List Char × Nat × Rat) :
    (decide (b.2.1 ≤ a.2.1) || decide (a.2.1 ≤ b.2.1)) = true := by
  simp only [Bool.or_eq_true, decide_eq_true_eq]
  omega

theorem topMetaLe_trans (a b c : List Char × Rat)
    (hab : decide (a.2 ≤ b.2) = true) (hbc : decide (b.2 ≤ c.2) = true) :
    decide (a.2 ≤ c.2) = true := by
  simp only [decide_eq_true_eq] at hab hbc ⊢
  exact le_trans hab hbc

theorem topMetaLe_total (a b : List Char × Rat) :
    (decide (a.2 ≤ b.2) || decide (b.2 ≤ a.2)) = true := by
  simp only [Bool.or_eq_true, decide_eq_true_eq]
  exact le_total a.2 b.2

theorem immortalsList_unguarded (infos : List (Option GameInfo)) :
    immortalsList infos =
      (gasData infos).map (fun p => (p.1, p.2.count, p.2.sum_sunk / (p.2.count : Rat))) := by
  unfold immortalsList
  apply List.map_congr_left
  intro p hp
  rw [if_pos (show 0 < p.2.count from gasData_counts infos p hp)]

theorem topMetaList_unguarded (infos : List (Option GameInfo)) :
    topMetaList infos =
      (placementData infos).map (fun p => (p.1, (p.2.sum_escaped : Rat) / (p.2.count : Rat))) := by
  unfold topMetaList
  apply List.map_congr_left
  intro p hp
  rw [if_pos (show 0 < p.2.count from placementData_counts infos p hp)]

theorem gasData_skip_none (pre post : List (Option GameInfo)) :
    gasData (pre ++ none :: post) = gasData (pre ++ post) := by
  unfold gasData
  rw [List.foldl_append, List.foldl_append, List.foldl_cons]
  rfl

theorem placementData_skip_none (pre post : List (Option GameInfo)) :
    placementData (pre ++ none :: post) = placementData (pre ++ post) := by
  unfold placementData
  rw [List.foldl_append, List.foldl_append, List.foldl_cons]
  rfl

theorem get_game_info_empty (d : List Char → Option GameInfo) (stream : List Char)
    (h : (http_get stream).1 = some []) : get_game_info d stream = none := by
  unfold get_game_info
  rw [h]
  rfl

theorem roundHalfEven_intCast (k : Int) : roundHalfEven ((k : Rat)) = k := by
  simp only [roundHalfEven, Int.floor_intCast, sub_self]
  norm_num

theorem formatRat2_natCast (n : Nat) :
    formatRat2 ((n : Rat)) = natToChars n ++ '.' :: ['0', '0'] := by
  have hcast : ((n : Rat) * 100) = (((n * 100 : Nat) : Int) : Rat) := by push_cast; ring
  have h1 : n * 100 / 100 = n := by omega
  have h2 : n * 100 % 100 = 0 := by omega
  simp only [formatRat2, hcast, roundHalfEven_intCast, Int.toNat_natCast, h1, h2,
    if_neg (by omega : ¬ (((n * 100 : Nat) : Int) < 0))]
  rfl

/-- C1 (counterexample): a response declaring `Content-Length: 5` whose
connection closes after only two body bytes makes `http_get` return the
partial body `"ab"` as a successful result, not `None`: the body loop
`break`s on a closed connection and the accumulated bytes are returned. -/
theorem c1_counterexample :
    (http_get (("HTTP/1.1 200 OK\r\nContent-Length: 5\r\n\r\nab").toList)).1 =
      some ("ab".toList) := by decide

/-- C1 (amended): for every 200 response whose declared Content-Length
exceeds the bytes the peer delivers before closing, `http_get` returns the
partial body received so far as a successful result (consuming the whole
stream), rather than `None`. -/
theorem c1_partial_body (hdr rest : List Char)
    (hne : containsSeq crlfTerm (hdr ++ ['\r', '\n', '\r']) = false)
    (h200 : containsSeq ("200".toList) (firstLineOf hdr) = true)
    (hlen : (rest.length : Int) < contentLengthOf hdr) :
    http_get (hdr ++ (crlfTerm ++ rest)) = (some rest, []) := by
  rw [http_get_split hdr rest hne, if_pos h200, recvLoop_all _ _ _ hlen]
  simp

/-- C1 witness: the amended theorem applied to a concrete truncated stream. -/
theorem c1_partial_body_witness :
    http_get (("HTTP/1.1 200 OK\r\nContent-Length: 5").toList ++ (crlfTerm ++ ("ab".toList))) =
      (some ("ab".toList), []) :=
  c1_partial_body _ _ (by decide) (by decide) (by decide)

/-- C2 (counterexample): the histogram key of a record with no cannons is
`"80000000"` — all 8 rows fall into bin 0, so that bin holds 8 and its digit
is `'8'`, outside `'0'..'7'`; `analysis_top_meta` emits this key. -/
theorem c2_counterexample :
    (placementStrOf [] = ("80000000".toList) ∧
      ¬ (∀ c ∈ placementStrOf [], '0' ≤ c ∧ c ≤ '7')) ∧
    analysis_top_meta [some ⟨some ⟨none, none, some 0, some []⟩⟩] =
      [("80000000,0.00".toList)] := by
  refine ⟨by decide, ?_⟩
  simp only [analysis_top_meta, topMetaSorted, topMetaList, placementData, topMetaStep,
    dictAdd, lookupKey, updateKey, List.foldl, Option.getD_some, Option.isNone_none,
    Option.isNone_some, if_true, if_false, ite_true, ite_false, eq_self_iff_true,
    List.map_cons, List.map_nil]
  rw [List.mergeSort_of_sorted (List.pairwise_singleton _ _)]
  have hm : (((0 : Int) + (0 : Int) : Int) : Rat) / ((0 + 1 : Nat) : Rat) = ((0 : Nat) : Rat) := by
    norm_num
  simp only [List.map_cons, List.map_nil, if_pos (by norm_num : (0 : Nat) < 0 + 1), hm,
    formatRat2_natCast]
  decide

/-- C2 (amended): every character of a derived histogram key is a digit
between '0' and '8' inclusive (bin values range over 0..8 since exactly 8
rows are binned), and a per-row placement count of 7 or more is clamped
into the "7" bucket. -/
theorem c2_amended (cannons : List (List Int)) :
    (∀ c ∈ placementStrOf cannons, '0' ≤ c ∧ c ≤ '8') ∧
    (∀ (h : List Nat) (k : Nat), 7 ≤ k → histStep h k = h.set 7 (h.getD 7 0 + 1)) := by
  refine ⟨fun c hc => placementStrOf_chars cannons c hc, ?_⟩
  intro h k hk
  unfold histStep
  by_cases h7 : k ≤ 7
  · have hk7 : k = 7 := by omega
    subst hk7
    rw [if_pos h7]
  · rw [if_neg h7]

/-- C2 witness: the amended theorem applied at the `'8'` character of the
empty-cannons key and at a row count of 9. -/
theorem c2_amended_witness :
    ('0' ≤ '8' ∧ '8' ≤ '8') ∧
    histStep (List.replicate 8 0) 9 =
      (List.replicate 8 0).set 7 ((List.replicate 8 0).getD 7 0 + 1) :=
  ⟨(c2_amended []).1 '8' (by decide), (c2_amended []).2 (List.replicate 8 0) 9 (by decide)⟩

/-- C3 (confirmed): for every cap `n` and every page-response sequence, the
crawler returns exactly `min n (ids available before a stopping condition)`
identifiers; in particular never more than `n`. -/
theorem c3_crawler_min (n : Nat) (pages : List (Option Page)) :
    (get_top_n_games n pages).length = min n (availIds pages) := by
  unfold get_top_n_games
  rw [getTopNAux_length pages n [] (by simp)]
  simp

/-- C4 (confirmed): for every cannon-placement sequence, the derived
histogram key is exactly 8 characters and its digit-values sum to exactly 8
(each of the 8 fixed rows falls into exactly one bin). -/
theorem c4_key_shape (cannons : List (List Int)) :
    (placementStrOf cannons).length = 8 ∧ digitSum (placementStrOf cannons) = 8 :=
  ⟨placementStrOf_length cannons, placementStrOf_digitSum cannons⟩

/-- C5 (counterexample): a 404 status line whose reason phrase happens to
contain the substring "200" is treated as success by `http_get` — the code
tests `"200" in first_line`, not the status-code field. -/
theorem c5_counterexample :
    (http_get (("HTTP/1.1 404 see 200\r\nContent-Length: 0\r\n\r\n").toList)).1 =
      some [] := by decide

/-- C5 (amended): `http_get` fails (returns `None`, leaving the body bytes
unread) for every response whose status line does not contain the substring
"200" anywhere; the check is a substring test on the whole status line, so a
non-200 status whose line contains "200" elsewhere is treated as success. -/
theorem c5_amended (hdr rest : List Char)
    (hne : containsSeq crlfTerm (hdr ++ ['\r', '\n', '\r']) = false)
    (h200 : containsSeq ("200".toList) (firstLineOf hdr) = false) :
    http_get (hdr ++ (crlfTerm ++ rest)) = (none, rest) := by
  rw [http_get_split hdr rest hne, if_neg (by rw [h200]; simp)]

/-- C5 witness: the amended theorem applied to a concrete 404 response. -/
theorem c5_amended_witness :
    http_get (("HTTP/1.1 404 Not Found\r\nContent-Length: 3").toList ++
        (crlfTerm ++ ("abc".toList))) =
      (none, ("abc".toList)) :=
  c5_amended _ _ (by decide) (by decide)

/-- C6 (confirmed): the header scan is case-insensitive (any case variant of
`Content-Length` followed by a parseable value yields that value, after any
run of non-matching lines); absence of a matching line yields 0 (and a
malformed value also yields 0, since `parseIntPy` then returns `none` and the
scan's `getD 0` applies — covered by the `≤ 0` case below); and a resolved
content length of 0 makes `http_get` return an empty body while consuming no
body bytes at all. -/
theorem c6_content_length :
    (∀ (pre : List (List Char)) (a v : List Char) (rest : List (List Char)) (n : Int),
      (∀ ln ∈ pre, startsWith (ln.map Char.toLower) ("content-length:".toList) = false) →
      a.map Char.toLower = ("content-length".toList) →
      parseIntPy (stripChars v) = some n →
      findContentLength (pre ++ (a ++ ':' :: v) :: rest) = n) ∧
    (∀ lines : List (List Char),
      (∀ ln ∈ lines, startsWith (ln.map Char.toLower) ("content-length:".toList) = false) →
      findContentLength lines = 0) ∧
    (∀ hdr rest : List Char,
      containsSeq crlfTerm (hdr ++ ['\r', '\n', '\r']) = false →
      containsSeq ("200".toList) (firstLineOf hdr) = true →
      contentLengthOf hdr ≤ 0 →
      http_get (hdr ++ (crlfTerm ++ rest)) = (some [], rest)) := by
  refine ⟨?_, findContentLength_absent, ?_⟩
  · intro pre a v rest n hpre ha hv
    rw [findContentLength_skip pre _ hpre, findContentLength_found a v rest n ha hv]
  · intro hdr rest hne h200 hcl
    rw [http_get_split hdr rest hne, if_pos h200, recvLoop_nonpos _ _ _ hcl]

/-- C6 witness: the three parts applied to concrete headers: a case-variant
`Content-LENGTH` line after a `Host` line, a header block with no length
declaration, and a `Content-Length: 0` response followed by unread bytes. -/
theorem c6_content_length_witness :
    findContentLength ([("Host: x".toList)] ++
        (("Content-LENGTH".toList) ++ ':' :: (" 7 ".toList)) :: []) = 7 ∧
    findContentLength [("Host: x".toList)] = 0 ∧
    http_get (("HTTP/1.1 200 OK\r\nContent-Length: 0").toList ++ (crlfTerm ++ ("XY".toList))) =
      (some [], ("XY".toList)) :=
  ⟨c6_content_length.1 [("Host: x".toList)] _ _ [] 7 (by decide) (by decide) (by decide),
    c6_content_length.2.1 [("Host: x".toList)] (by decide),
    c6_content_length.2.2 _ _ (by decide) (by decide) (by decide)⟩

/-- C7 (confirmed): Variant A's finalized rows are sorted by count
descending and Variant B's by mean ascending, and in both variants the rows
whose sort key equals any fixed value appear in exactly their first-created
(bucket-insertion) order — Python's stable sort, including `reverse=True`,
is `mergeSort` with the corresponding comparison.  `analysis_immortals` and
`analysis_top_meta` map pure formatting over these sorted lists. -/
theorem c7_ordering (infos : List (Option GameInfo)) :
    ((immortalsSorted infos).Pairwise (fun x y => y.2.1 ≤ x.2.1)
      ∧ ∀ k : Nat, (immortalsSorted infos).filter (fun x => x.2.1 == k) =
          (immortalsList infos).filter (fun x => x.2.1 == k))
    ∧ ((topMetaSorted infos).Pairwise (fun x y => x.2 ≤ y.2)
      ∧ ∀ q : Rat, (topMetaSorted infos).filter (fun x => decide (x.2 = q)) =
          (topMetaList infos).filter (fun x => decide (x.2 = q))) := by
  refine ⟨⟨?_, ?_⟩, ?_, ?_⟩
  · exact (List.sorted_mergeSort immortalsLe_trans immortalsLe_total
      (immortalsList infos)).imp (fun h => of_decide_eq_true h)
  · intro k
    refine filter_mergeSort_eq _ immortalsLe_trans immortalsLe_total _ ?_ _
    intro x y hx hy
    rw [beq_iff_eq] at hx hy
    simp [hx, hy]
  · exact (List.sorted_mergeSort topMetaLe_trans topMetaLe_total
      (topMetaList infos)).imp (fun h => of_decide_eq_true h)
  · intro q
    refine filter_mergeSort_eq _ topMetaLe_trans topMetaLe_total _ ?_ _
    intro x y hx hy
    rw [decide_eq_true_eq] at hx hy
    simp [hx, hy]

/-- C8 (confirmed): in both variants every bucket ever present in the
aggregation dict has count ≥ 1 (buckets are created with count 0 and
immediately incremented in the same iteration), so the `count > 0` guard on
the mean division never takes its `else 0` branch: the finalized lists equal
their unguarded counterparts. -/
theorem c8_counts_positive (infos : List (Option GameInfo)) :
    (∀ p ∈ gasData infos, 1 ≤ p.2.count) ∧
    (∀ p ∈ placementData infos, 1 ≤ p.2.count) ∧
    immortalsList infos =
      (gasData infos).map (fun p => (p.1, p.2.count, p.2.sum_sunk / (p.2.count : Rat))) ∧
    topMetaList infos =
      (placementData infos).map (fun p => (p.1, (p.2.sum_escaped : Rat) / (p.2.count : Rat))) :=
  ⟨gasData_counts infos, placementData_counts infos,
    immortalsList_unguarded infos, topMetaList_unguarded infos⟩

/-- C8 witness: the count bounds applied to the buckets produced by one
concrete fetched record in each variant. -/
theorem c8_counts_positive_witness :
    1 ≤ (Buck.mk 1 0).count ∧ 1 ≤ (BuckB.mk 1 0).count :=
  ⟨(c8_counts_positive [some ⟨some ⟨some ("a".toList), none, none, none⟩⟩]).1
      (("a".toList), Buck.mk 1 0)
      (by simp [gasData, immortalsStep, dictAdd, lookupKey, updateKey]),
    (c8_counts_positive [some ⟨some ⟨some ("a".toList), none, none, none⟩⟩]).2.1
      ((placementStrOf []), BuckB.mk 1 0)
      (by decide)⟩

/-- C9 (confirmed): two present records with auth "alice" and ships_sunk 5
and 7 produce the single output line `alice,2,6.00`. -/
theorem c9_alice :
    analysis_immortals [some ⟨some ⟨some ("alice".toList), some 5, none, none⟩⟩,
      some ⟨some ⟨some ("alice".toList), some 7, none, none⟩⟩] =
    [("alice,2,6.00".toList)] := by
  simp only [analysis_immortals, immortalsSorted, immortalsList, gasData, immortalsStep,
    dictAdd, lookupKey, updateKey, List.foldl, Option.getD_some, Option.isNone_none,
    Option.isNone_some, if_true, if_false, Bool.false_eq_true, ite_true, ite_false,
    eq_self_iff_true, List.map_cons, List.map_nil]
  rw [List.mergeSort_of_sorted (List.pairwise_singleton _ _)]
  have hm : ((0 : Rat) + ((5 : Int) : Rat) + ((7 : Int) : Rat)) / ((0 + 1 + 1 : Nat) : Rat) =
      ((6 : Nat) : Rat) := by norm_num
  simp only [List.map_cons, List.map_nil, if_pos (by norm_num : (0 : Nat) < 0 + 1 + 1), hm,
    formatRat2_natCast]
  decide

/-- C10 (confirmed): whenever `http_get` succeeds with an empty body (as a
`Content-Length: 0` response does), `get_game_info` treats the record as
absent (`if not data` catches the empty string), and an absent record is
skipped by both aggregations, contributing to no bucket. -/
theorem c10_empty_body (d : List Char → Option GameInfo) (stream : List Char)
    (h : (http_get stream).1 = some []) :
    get_game_info d stream = none ∧
    ∀ pre post : List (Option GameInfo),
      gasData (pre ++ none :: post) = gasData (pre ++ post) ∧
      placementData (pre ++ none :: post) = placementData (pre ++ post) :=
  ⟨get_game_info_empty d stream h,
    fun pre post => ⟨gasData_skip_none pre post, placementData_skip_none pre post⟩⟩

/-- C10 witness: applied to a concrete `Content-Length: 0` success response
with an arbitrary decoder. -/
theorem c10_empty_body_witness :
    get_game_info (fun _ => none) (("HTTP/1.1 200 OK\r\nContent-Length: 0\r\n\r\n").toList) =
      none ∧
    gasData [none] = gasData [] ∧ placementData [none] = placementData [] :=
  ⟨(c10_empty_body (fun _ => none) _ (by decide)).1,
    ((c10_empty_body (fun _ => none) (("HTTP/1.1 200 OK\r\nContent-Length: 0\r\n\r\n").toList)
        (by decide)).2 [] []).1,
    ((c10_empty_body (fun _ => none) (("HTTP/1.1 200 OK\r\nContent-Length: 0\r\n\r\n").toList)
        (by decide)).2 [] []).2⟩
